import Mathlib

/-!
Verification of the guacamole proxy daemon core: the display-protocol codec
(escaping, instruction parsing, base64 streaming), the UUID-keyed connection
registry, the handshake, and the per-connection event loop, shallowly embedded
from the C sources under src/guacamole/.

Byte strings are modelled as `List Char` (the protocol treats UTF-8 as raw
bytes; every byte the code inspects is ASCII, and all other byte values fall
into the same default branches as any non-special `Char`).
-/

namespace Guac

/-- Function `guac_escape_string` from src/guacamole/proxy/protocol.c lines 13-67:
walks the input once and replaces `;` by `\s`, `,` by `\c`, `\` by `\\`,
copying every other byte. (The length-precomputation pass of the C code only
sizes the allocation and is not part of the observable result.) -/
def guac_escape_string : List Char → List Char
  | [] => []
  | c :: rest =>
    if c = ';' then '\\' :: 's' :: guac_escape_string rest
    else if c = ',' then '\\' :: 'c' :: guac_escape_string rest
    else if c = '\\' then '\\' :: '\\' :: guac_escape_string rest
    else c :: guac_escape_string rest

/-- The earlier draft of `guac_escape_string` in src/guacamole/proxy/proxy.c
lines 16-67: identical except that it has no case for `\`, which is copied
through unescaped. -/
def proxy_guac_escape_string : List Char → List Char
  | [] => []
  | c :: rest =>
    if c = ';' then '\\' :: 's' :: proxy_guac_escape_string rest
    else if c = ',' then '\\' :: 'c' :: proxy_guac_escape_string rest
    else c :: proxy_guac_escape_string rest

/-- Modelled from the spec: `guac_unescape_string_inplace` is declared in
src/guacamole/proxy/protocol.h line 39 but its definition is not under src/.
Spec section 4.2: `\s` becomes `;`, `\c` becomes `,`, `\\` becomes `\`, and any
other `\x` copies `x`. A trailing lone `\` is kept as-is (the spec does not
mention it; it never occurs in escaped data). -/
def guac_unescape_string_inplace : List Char → List Char
  | [] => []
  | c :: rest =>
    if c = '\\' then
      match rest with
      | [] => [c]
      | x :: rest2 =>
        if x = 's' then ';' :: guac_unescape_string_inplace rest2
        else if x = 'c' then ',' :: guac_unescape_string_inplace rest2
        else if x = '\\' then '\\' :: guac_unescape_string_inplace rest2
        else x :: guac_unescape_string_inplace rest2
    else c :: guac_unescape_string_inplace rest

/-- A byte string contains no unescaped `;`, `,` or `\`: every `\` is the
first byte of one of the escape pairs `\s`, `\c`, `\\`, and outside those
pairs neither `;` nor `,` occurs. This is the scanning reading of the claim
"escape(s) contains no unescaped `;`, `,`, or `\`". -/
def wellEscaped : List Char → Bool
  | [] => true
  | c :: rest =>
    if c = '\\' then
      match rest with
      | [] => false
      | x :: rest2 => (x == 's' || x == 'c' || x == '\\') && wellEscaped rest2
    else (c != ';') && (c != ',') && wellEscaped rest

theorem unescape_cons_of_ne (c : Char) (l : List Char) (h : c ≠ '\\') :
    guac_unescape_string_inplace (c :: l) = c :: guac_unescape_string_inplace l := by
  cases l <;> simp [guac_unescape_string_inplace, h]

theorem unescape_pair_s (l : List Char) :
    guac_unescape_string_inplace ('\\' :: 's' :: l) =
      ';' :: guac_unescape_string_inplace l := by
  simp [guac_unescape_string_inplace]

theorem unescape_pair_c (l : List Char) :
    guac_unescape_string_inplace ('\\' :: 'c' :: l) =
      ',' :: guac_unescape_string_inplace l := by
  simp [guac_unescape_string_inplace]

theorem unescape_pair_bs (l : List Char) :
    guac_unescape_string_inplace ('\\' :: '\\' :: l) =
      '\\' :: guac_unescape_string_inplace l := by
  simp [guac_unescape_string_inplace]

theorem wellEscaped_cons_of_ne (c : Char) (l : List Char) (h : c ≠ '\\') :
    wellEscaped (c :: l) = ((c != ';') && (c != ',') && wellEscaped l) := by
  cases l <;> simp [wellEscaped, h]

theorem wellEscaped_pair (x : Char) (l : List Char)
    (h : x = 's' ∨ x = 'c' ∨ x = '\\') :
    wellEscaped ('\\' :: x :: l) = wellEscaped l := by
  rcases h with h | h | h <;> subst h <;> simp [wellEscaped]

/-- C2: escape round-trip. Unescaping the output of `guac_escape_string`
(protocol.c) restores the input exactly, and the output contains no
unescaped `;`, `,` or `\`. -/
theorem escape_round_trip (s : List Char) :
    guac_unescape_string_inplace (guac_escape_string s) = s ∧
    wellEscaped (guac_escape_string s) = true := by
  induction s with
  | nil => exact ⟨rfl, rfl⟩
  | cons c rest ih =>
    by_cases h1 : c = ';'
    · subst h1
      simpa [guac_escape_string, unescape_pair_s,
        wellEscaped_pair 's' _ (Or.inl rfl)] using ih
    · by_cases h2 : c = ','
      · subst h2
        simpa [guac_escape_string, unescape_pair_c,
          wellEscaped_pair 'c' _ (Or.inr (Or.inl rfl))] using ih
      · by_cases h3 : c = '\\'
        · subst h3
          simpa [guac_escape_string, unescape_pair_bs,
            wellEscaped_pair '\\' _ (Or.inr (Or.inr rfl))] using ih
        · simpa [guac_escape_string, h1, h2, h3, unescape_cons_of_ne c _ h3,
            wellEscaped_cons_of_ne c _ h3] using ih

/-! ## Outbound encoder: guac_send_name -/

/-- Function `guac_write_string` modelled from the spec (section 4.1): appends the raw
bytes of the string to the outbound stream. The GUACIO-struct implementation
is declared in guacio.h but its definition is not under src/; its observable
effect on the byte stream is pure append. -/
def guac_write_string (out : List Char) (s : List Char) : List Char := out ++ s

/-- Function `guac_send_name` from src/guacamole/proxy/protocol.c lines 69-79: it
computes `escaped = guac_escape_string(name)` but then writes the literal
`name` between `name:` and `;`, freeing `escaped` unused. The model returns
the bytes appended to the stream. -/
def guac_send_name (out : List Char) (name : List Char) : List Char :=
  guac_write_string (guac_write_string (guac_write_string out "name:".toList) name) ";".toList

/-- C3: at the failing input `name = ";"`, `guac_send_name` puts the raw,
unescaped name on the wire: it emits `name:;;` where the claim (and spec
section 4.3) requires `name:` followed by the escape-encoding `\s` and `;`.
The escape-encoded form differs from what the code emits. -/
theorem send_name_unescaped_bug :
    guac_send_name [] [';'] = "name:;;".toList ∧
    guac_send_name [] [';'] ≠
      "name:".toList ++ guac_escape_string [';'] ++ ";".toList := by
  constructor
  · rfl
  · decide

/-! ## Instruction parsing: guac_read_instruction (src/guacamole/proxy/protocol.c) -/

/-- A parsed display-protocol instruction (protocol.h): opcode plus argument
list. The C `argc` field always equals the length of `argv` in well-formed
parses, so the model carries the list alone. -/
structure guac_instruction where
  opcode : List Char
  argv : List (List Char)
deriving DecidableEq, Repr

/-- The in-place separator rewrite of `guac_read_instruction` (protocol.c
lines 244-262), as a split of the instruction body into zero-terminated
segments: every `,` ends a segment, and the first `:` (only while the opcode
is still unset, i.e. while no `:` has been consumed yet) ends a segment.
The flag records whether that first `:` has been seen. -/
def splitSegments : List Char → Bool → List (List Char)
  | [], _ => [[]]
  | c :: rest, colonSeen =>
    if c = ',' then [] :: splitSegments rest colonSeen
    else if c = ':' ∧ colonSeen = false then [] :: splitSegments rest true
    else
      match splitSegments rest colonSeen with
      | [] => [[c]]
      | s :: ss => (c :: s) :: ss

/-- Assembling the parsed instruction from the body bytes `[0, i)` before the
terminating `;` (protocol.c lines 233-262): the first segment is the opcode
(the whole body when no separator occurs, line 261), the rest are the
arguments in order. -/
def parseInstructionBody (body : List Char) : guac_instruction :=
  match splitSegments body false with
  | [] => ⟨[], []⟩
  | op :: args => ⟨op, args⟩

/-- One call of `guac_read_instruction` (protocol.c lines 209-289) on an
inbound buffer that already holds all available bytes: scan from byte 0 for
the first `;` (the scan is `takeWhile`); if none is present the call returns
no instruction yet (the select/recv path), otherwise the bytes before the
`;` are parsed and the tail after it is moved to the buffer origin. -/
def guac_read_instruction (buf : List Char) : Option (guac_instruction × List Char) :=
  if (buf.takeWhile (· != ';')).length = buf.length then none
  else some (parseInstructionBody (buf.takeWhile (· != ';')),
    buf.drop ((buf.takeWhile (· != ';')).length + 1))

/-- The event loop's drain of every complete instruction currently in the
buffer (the do-while around `guac_read_instruction` in client.c): repeated
parsing until no complete instruction remains, returning the leftover buffer
and the parsed instructions in order. Each successful parse consumes at
least the terminating `;`, so `buf.length + 1` rounds of fuel always
suffice. -/
def drainAux : Nat → List Char → List Char × List guac_instruction
  | 0, buf => (buf, [])
  | fuel + 1, buf =>
    match guac_read_instruction buf with
    | none => (buf, [])
    | some (inst, rest) =>
      let p := drainAux fuel rest
      (p.1, inst :: p.2)

def drainInstructions (buf : List Char) : List Char × List guac_instruction :=
  drainAux (buf.length + 1) buf

/-- Feeding one byte from the wire: the byte is appended to the inbound
buffer (the recv into the buffer tail) and every now-complete instruction is
consumed. -/
def feedByte (buf : List Char) (c : Char) : List Char × List guac_instruction :=
  drainInstructions (buf ++ [c])

/-- Feeding a byte stream one byte at a time, collecting all parsed
instructions in order and the final leftover buffer. -/
def feedBytes (buf : List Char) : List Char → List Char × List guac_instruction
  | [] => (buf, [])
  | c :: cs =>
    let p := feedByte buf c
    let q := feedBytes p.1 cs
    (q.1, p.2 ++ q.2)

/-- Wire encoding of the argument tail: each further argument is preceded by
`,` (spec section 4.2 grammar). -/
def encodeArgs : List (List Char) → List Char
  | [] => []
  | a :: rest => ',' :: (a ++ encodeArgs rest)

/-- The body (everything before the terminating `;`) of the wire encoding of
an instruction: `OPCODE (":" ARG ("," ARG)*)?`. -/
def encodeBody (i : guac_instruction) : List Char :=
  i.opcode ++
    match i.argv with
    | [] => []
    | a :: rest => ':' :: (a ++ encodeArgs rest)

/-- The wire encoding of one instruction: its body followed by `;`. -/
def encodeInstruction (i : guac_instruction) : List Char :=
  encodeBody i ++ [';']

/-- A byte stream that is the concatenation of encoded instructions. -/
def encodeStream : List guac_instruction → List Char
  | [] => []
  | i :: rest => encodeInstruction i ++ encodeStream rest

/-- Validity in the claim's sense: opcode and every argument are
escape-encoded byte strings, i.e. images of `guac_escape_string`. -/
def validInstruction (i : guac_instruction) : Prop :=
  (∃ s, i.opcode = guac_escape_string s) ∧
    ∀ a ∈ i.argv, ∃ s, a = guac_escape_string s

/-! ### Properties of the escape image -/

theorem semi_not_mem_escape (s : List Char) : ';' ∉ guac_escape_string s := by
  induction s with
  | nil => simp [guac_escape_string]
  | cons c rest ih =>
    by_cases h1 : c = ';'
    · subst h1; simp [guac_escape_string, ih]
    · by_cases h2 : c = ','
      · subst h2; simp [guac_escape_string, ih]
      · by_cases h3 : c = '\\'
        · subst h3; simp [guac_escape_string, ih]
        · simp [guac_escape_string, h1, h2, h3, ih, Ne.symm h1]

theorem comma_not_mem_escape (s : List Char) : ',' ∉ guac_escape_string s := by
  induction s with
  | nil => simp [guac_escape_string]
  | cons c rest ih =>
    by_cases h1 : c = ';'
    · subst h1; simp [guac_escape_string, ih]
    · by_cases h2 : c = ','
      · subst h2; simp [guac_escape_string, ih]
      · by_cases h3 : c = '\\'
        · subst h3; simp [guac_escape_string, ih]
        · simp [guac_escape_string, h1, h2, h3, ih, Ne.symm h2]

/-! ### Splitting lemmas for the body rewrite -/

theorem splitSegments_no_sep_true (a : List Char) (h : ',' ∉ a) :
    splitSegments a true = [a] := by
  induction a with
  | nil => rfl
  | cons c rest ih =>
    have hc : ¬ c = ',' := fun e => h (by simp [e])
    have hrest : ',' ∉ rest := fun m => h (List.mem_cons_of_mem _ m)
    simp [splitSegments, hc, ih hrest]

theorem splitSegments_comma_true (a l : List Char) (h : ',' ∉ a) :
    splitSegments (a ++ ',' :: l) true = a :: splitSegments l true := by
  induction a with
  | nil => simp [splitSegments]
  | cons c rest ih =>
    have hc : ¬ c = ',' := fun e => h (by simp [e])
    have hrest : ',' ∉ rest := fun m => h (List.mem_cons_of_mem _ m)
    simp [splitSegments, hc, ih hrest]

theorem splitSegments_no_sep_false (op : List Char) (hcol : ':' ∉ op)
    (hcom : ',' ∉ op) : splitSegments op false = [op] := by
  induction op with
  | nil => rfl
  | cons c rest ih =>
    have hc1 : ¬ c = ',' := fun e => hcom (by simp [e])
    have hc2 : ¬ c = ':' := fun e => hcol (by simp [e])
    have h1 : ':' ∉ rest := fun m => hcol (List.mem_cons_of_mem _ m)
    have h2 : ',' ∉ rest := fun m => hcom (List.mem_cons_of_mem _ m)
    simp [splitSegments, hc1, hc2, ih h1 h2]

theorem splitSegments_colon_false (op l : List Char) (hcol : ':' ∉ op)
    (hcom : ',' ∉ op) :
    splitSegments (op ++ ':' :: l) false = op :: splitSegments l true := by
  induction op with
  | nil => simp [splitSegments]
  | cons c rest ih =>
    have hc1 : ¬ c = ',' := fun e => hcom (by simp [e])
    have hc2 : ¬ c = ':' := fun e => hcol (by simp [e])
    have h1 : ':' ∉ rest := fun m => hcol (List.mem_cons_of_mem _ m)
    have h2 : ',' ∉ rest := fun m => hcom (List.mem_cons_of_mem _ m)
    simp [splitSegments, hc1, hc2, ih h1 h2]

theorem splitSegments_args (args : List (List Char)) (a : List Char)
    (ha : ',' ∉ a) (hargs : ∀ b ∈ args, ',' ∉ b) :
    splitSegments (a ++ encodeArgs args) true = a :: args := by
  induction args generalizing a with
  | nil => simpa [encodeArgs] using splitSegments_no_sep_true a ha
  | cons b rest ih =>
    have hb : ',' ∉ b := hargs b (by simp)
    have hrest : ∀ x ∈ rest, ',' ∉ x := fun x m => hargs x (by simp [m])
    have : a ++ encodeArgs (b :: rest) = a ++ ',' :: (b ++ encodeArgs rest) := by
      simp [encodeArgs]
    rw [this, splitSegments_comma_true a _ ha, ih b hb hrest]

theorem parse_encodeBody (i : guac_instruction) (hcol : ':' ∉ i.opcode)
    (hcomOp : ',' ∉ i.opcode) (hsemOp : ';' ∉ i.opcode)
    (hargs : ∀ a ∈ i.argv, ',' ∉ a) :
    parseInstructionBody (encodeBody i) = i := by
  obtain ⟨op, args⟩ := i
  cases args with
  | nil =>
    simp only [encodeBody, List.append_nil]
    simp [parseInstructionBody, splitSegments_no_sep_false op hcol hcomOp]
  | cons a rest =>
    have ha : ',' ∉ a := hargs a (by simp)
    have hrest : ∀ x ∈ rest, ',' ∉ x := fun x m => hargs x (by simp [m])
    simp only [encodeBody]
    rw [show op ++ ':' :: (a ++ encodeArgs rest) = op ++ ':' :: (a ++ encodeArgs rest) from rfl,
      parseInstructionBody, splitSegments_colon_false op _ hcol hcomOp,
      splitSegments_args rest a ha hrest]

/-! ### Buffer-level behaviour of guac_read_instruction -/

theorem takeWhile_nosemi_self (buf : List Char) (h : ';' ∉ buf) :
    buf.takeWhile (· != ';') = buf := by
  induction buf with
  | nil => rfl
  | cons c cs ih =>
    have hc : c ≠ ';' := fun e => h (by simp [e])
    have hcs : ';' ∉ cs := fun m => h (List.mem_cons_of_mem _ m)
    simp [List.takeWhile_cons, hc, ih hcs]

theorem takeWhile_nosemi_append (body rest : List Char) (h : ';' ∉ body) :
    (body ++ ';' :: rest).takeWhile (· != ';') = body := by
  induction body with
  | nil => simp [List.takeWhile_cons]
  | cons c cs ih =>
    have hc : c ≠ ';' := fun e => h (by simp [e])
    have hcs : ';' ∉ cs := fun m => h (List.mem_cons_of_mem _ m)
    simp [List.takeWhile_cons, hc, ih hcs]

theorem drop_after_body (body rest : List Char) :
    (body ++ ';' :: rest).drop (body.length + 1) = rest := by
  induction body with
  | nil => rfl
  | cons c b ih => simp [ih]

theorem read_none_of_nosemi (buf : List Char) (h : ';' ∉ buf) :
    guac_read_instruction buf = none := by
  unfold guac_read_instruction
  rw [takeWhile_nosemi_self buf h]
  simp

theorem read_complete (body rest : List Char) (h : ';' ∉ body) :
    guac_read_instruction (body ++ ';' :: rest) =
      some (parseInstructionBody body, rest) := by
  unfold guac_read_instruction
  rw [takeWhile_nosemi_append body rest h]
  have hlen : ¬ body.length = (body ++ ';' :: rest).length := by
    simp
  rw [if_neg hlen, drop_after_body body rest]

/-! ### Draining and byte-at-a-time feeding -/

theorem drain_nosemi (buf : List Char) (h : ';' ∉ buf) :
    drainInstructions buf = (buf, []) := by
  unfold drainInstructions
  unfold drainAux
  rw [read_none_of_nosemi buf h]

theorem drain_single (body : List Char) (h : ';' ∉ body) :
    drainInstructions (body ++ [';']) = ([], [parseInstructionBody body]) := by
  unfold drainInstructions
  have hb : body ++ [';'] = body ++ ';' :: [] := rfl
  rw [hb]
  unfold drainAux
  rw [read_complete body [] h]
  have hlen : (body ++ ';' :: []).length = body.length + 1 := by simp
  simp only [hlen]
  unfold drainAux
  simp [guac_read_instruction]

theorem feedBytes_split (xs ys : List Char) (buf : List Char) :
    feedBytes buf (xs ++ ys) =
      ((feedBytes (feedBytes buf xs).1 ys).1,
        (feedBytes buf xs).2 ++ (feedBytes (feedBytes buf xs).1 ys).2) := by
  induction xs generalizing buf with
  | nil => simp [feedBytes]
  | cons c cs ih =>
    simp only [List.cons_append, feedBytes, List.append_eq]
    rw [ih]
    simp [List.append_assoc]

theorem feedBytes_nosemi (bytes : List Char) (buf : List Char)
    (h : ';' ∉ buf ++ bytes) : feedBytes buf bytes = (buf ++ bytes, []) := by
  induction bytes generalizing buf with
  | nil => simp [feedBytes]
  | cons c cs ih =>
    have h1 : ';' ∉ buf ++ [c] := by
      intro m
      apply h
      simp at m ⊢
      tauto
    have h2 : ';' ∉ (buf ++ [c]) ++ cs := by
      simpa [List.append_assoc] using h
    simp only [feedBytes, feedByte]
    rw [drain_nosemi _ h1, ih (buf ++ [c]) h2]
    simp

/-- Bytes of the encoded body of a wire-valid instruction: none is `;`. -/
theorem encodeArgs_nosemi (args : List (List Char))
    (h : ∀ b ∈ args, ';' ∉ b) : ';' ∉ encodeArgs args := by
  induction args with
  | nil => simp [encodeArgs]
  | cons a rest ih =>
    have ha : ';' ∉ a := h a (by simp)
    have hr : ∀ b ∈ rest, ';' ∉ b := fun b m => h b (by simp [m])
    simp [encodeArgs]
    exact ⟨ha, ih hr⟩

theorem encodeBody_nosemi (i : guac_instruction) (hop : ';' ∉ i.opcode)
    (hargs : ∀ a ∈ i.argv, ';' ∉ a) : ';' ∉ encodeBody i := by
  obtain ⟨op, args⟩ := i
  cases args with
  | nil => simpa [encodeBody] using hop
  | cons a rest =>
    have ha : ';' ∉ a := hargs a (by simp)
    have hr : ∀ b ∈ rest, ';' ∉ b := fun b m => hargs b (by simp [m])
    simp [encodeBody]
    exact ⟨hop, ha, encodeArgs_nosemi rest hr⟩

/-! ### C1: parser completeness round-trip -/

/-- C1 is false exactly as stated: the instruction with opcode `a:b` and no
arguments is wire-valid in the claim's sense (opcode and arguments are
escape-encoded; `:` is not among the escaped bytes), yet feeding its encoded
bytes `a:b;` one at a time yields the different instruction
`⟨opcode "a", args ["b"]⟩`, because the parser splits at the first `:`. -/
theorem round_trip_fails_on_colon_opcode :
    validInstruction ⟨"a:b".toList, []⟩ ∧
    feedBytes [] (encodeStream [⟨"a:b".toList, []⟩]) =
      ([], [⟨"a".toList, ["b".toList]⟩]) ∧
    ([⟨"a".toList, ["b".toList]⟩] : List guac_instruction) ≠
      [⟨"a:b".toList, []⟩] := by
  refine ⟨⟨⟨"a:b".toList, by decide⟩, ?_⟩, by decide, by decide⟩
  intro a m
  simp at m

/-- C1 (amended): for any sequence of wire-valid instructions whose opcodes
additionally contain no `:` (the grammar's unescapable separator), feeding the
concatenated encodings to `guac_read_instruction` one byte at a time yields
exactly the original instruction sequence with an empty inbound buffer at
end-of-stream. -/
theorem read_instruction_round_trip (insts : List guac_instruction)
    (h : ∀ i ∈ insts, validInstruction i ∧ ':' ∉ i.opcode) :
    feedBytes [] (encodeStream insts) = ([], insts) := by
  induction insts with
  | nil => rfl
  | cons i rest ih =>
    obtain ⟨⟨⟨sop, hsop⟩, hargs⟩, hcol⟩ := h i (by simp)
    have hrest : ∀ j ∈ rest, validInstruction j ∧ ':' ∉ j.opcode :=
      fun j m => h j (List.mem_cons_of_mem _ m)
    have hsemOp : ';' ∉ i.opcode := by rw [hsop]; exact semi_not_mem_escape sop
    have hcomOp : ',' ∉ i.opcode := by rw [hsop]; exact comma_not_mem_escape sop
    have hsemArgs : ∀ a ∈ i.argv, ';' ∉ a := by
      intro a m
      obtain ⟨s, hs⟩ := hargs a m
      rw [hs]
      exact semi_not_mem_escape s
    have hcomArgs : ∀ a ∈ i.argv, ',' ∉ a := by
      intro a m
      obtain ⟨s, hs⟩ := hargs a m
      rw [hs]
      exact comma_not_mem_escape s
    have hbody : ';' ∉ encodeBody i := encodeBody_nosemi i hsemOp hsemArgs
    have hparse : parseInstructionBody (encodeBody i) = i :=
      parse_encodeBody i hcol hcomOp hsemOp hcomArgs
    have hstream : encodeStream (i :: rest) =
        encodeBody i ++ (';' :: encodeStream rest) := by
      simp [encodeStream, encodeInstruction]
    rw [hstream, feedBytes_split (encodeBody i) (';' :: encodeStream rest) [],
      feedBytes_nosemi (encodeBody i) [] (by simpa using hbody)]
    simp only [feedBytes, feedByte, List.nil_append]
    rw [drain_single (encodeBody i) hbody, hparse, ih hrest]
    simp

/-- Witness for the amended C1 at a concrete two-instruction stream. -/
theorem read_instruction_round_trip_witness :
    (∀ i ∈ ([⟨"size".toList, ["1024".toList, "768".toList]⟩,
        ⟨"pause".toList, []⟩] : List guac_instruction),
      validInstruction i ∧ ':' ∉ i.opcode) ∧
    feedBytes [] (encodeStream [⟨"size".toList, ["1024".toList, "768".toList]⟩,
        ⟨"pause".toList, []⟩]) =
      ([], [⟨"size".toList, ["1024".toList, "768".toList]⟩,
        ⟨"pause".toList, []⟩]) := by
  have hvalid : ∀ i ∈ ([⟨"size".toList, ["1024".toList, "768".toList]⟩,
      ⟨"pause".toList, []⟩] : List guac_instruction),
      validInstruction i ∧ ':' ∉ i.opcode := by
    intro i m
    simp at m
    rcases m with m | m <;> subst m
    · refine ⟨⟨⟨"size".toList, by decide⟩, ?_⟩, by decide⟩
      intro a ha
      simp at ha
      rcases ha with ha | ha <;> subst ha
      · exact ⟨"1024".toList, by decide⟩
      · exact ⟨"768".toList, by decide⟩
    · refine ⟨⟨⟨"pause".toList, by decide⟩, ?_⟩, by decide⟩
      intro a ha
      simp at ha
  exact ⟨hvalid, read_instruction_round_trip _ hvalid⟩

/-! ### C6: non-empty opcode -/

theorem splitSegments_ne_nil (l : List Char) (cs : Bool) :
    splitSegments l cs ≠ [] := by
  cases l with
  | nil => simp [splitSegments]
  | cons c rest =>
    simp only [splitSegments]
    split
    · simp
    · split
      · simp
      · cases h : splitSegments rest cs <;> simp

theorem parseBody_cons_opcode (c : Char) (t : List Char) (h1 : c ≠ ':')
    (h2 : c ≠ ',') : 1 ≤ (parseInstructionBody (c :: t)).opcode.length := by
  have hif2 : ¬ (c = ':' ∧ false = false) := fun hx => h1 hx.1
  unfold parseInstructionBody splitSegments
  rw [if_neg h2, if_neg hif2]
  cases h : splitSegments t false with
  | nil => exact absurd h (splitSegments_ne_nil t false)
  | cons s ss => simp [h]

/-- C6 is false as stated: on the buffer holding the single byte `;` the
parser returns a complete instruction whose opcode is the empty string, so
not every instruction returned by `guac_read_instruction` has a non-empty
opcode. -/
theorem empty_opcode_on_bare_semicolon :
    guac_read_instruction [';'] = some (⟨[], []⟩, []) ∧
    ¬ (∀ (buf : List Char) (inst : guac_instruction) (rest : List Char),
        guac_read_instruction buf = some (inst, rest) →
          1 ≤ inst.opcode.length) := by
  constructor
  · decide
  · intro hall
    have h := hall [';'] ⟨[], []⟩ [] (by decide)
    simp at h

/-- C6 (amended): every instruction parsed from a buffer whose first byte is
none of `:`, `,`, `;` has a non-empty opcode. (The unamended claim fails only
on malformed buffers that open with a separator byte.) -/
theorem parsed_opcode_nonempty (buf : List Char) (inst : guac_instruction)
    (rest : List Char) (c : Char) (hc : buf.head? = some c)
    (h1 : c ≠ ':') (h2 : c ≠ ',') (h3 : c ≠ ';')
    (hread : guac_read_instruction buf = some (inst, rest)) :
    1 ≤ inst.opcode.length := by
  cases buf with
  | nil => simp at hc
  | cons c0 bs =>
    have hc0 : c0 = c := by simpa using hc
    subst hc0
    unfold guac_read_instruction at hread
    split at hread
    · exact absurd hread (by simp)
    · have hbne : (c0 != ';') = true := by simpa using h3
      have htw : (c0 :: bs).takeWhile (· != ';') =
          c0 :: bs.takeWhile (· != ';') := by
        simp [List.takeWhile_cons, hbne]
      rw [htw] at hread
      have hpair := Option.some_inj.mp hread
      have hinst : inst = parseInstructionBody (c0 :: bs.takeWhile (· != ';')) :=
        (congrArg Prod.fst hpair).symm
      rw [hinst]
      exact parseBody_cons_opcode c0 _ h1 h2

/-- Witness for the amended C6 at the concrete buffer `a;`. -/
theorem parsed_opcode_nonempty_witness :
    ("a;".toList.head? = some 'a') ∧
      1 ≤ (guac_instruction.mk "a".toList []).opcode.length :=
  ⟨rfl, parsed_opcode_nonempty "a;".toList ⟨"a".toList, []⟩ [] 'a' rfl
    (by decide) (by decide) (by decide) (by decide)⟩

/-! ## UUID registry: the 256-way trie of src/guacamole/libguac/uuidtree.c

A node holds a `used` count and a 256-entry `next` array. In the C code the
entries are type-punned `void*`: at the 15 inner levels a non-NULL entry is a
child node, at the leaf level (indexed by the 16th UUID byte) it is the stored
object. The model types the union: an entry is `none` (NULL), a child node
(`Sum.inl`) or a stored object (`Sum.inr`); the mixed constructors never
arise at the wrong level when all keys have the same length, exactly as in C.
A UUID is split the way the C loops split it: the list of the first 15 bytes
walked by `for (i=0; i<sizeof(uuid_t)-1; i++)`, plus the final byte used to
index the last node. -/

inductive guac_uuid_tree_node (α : Type) : Type where
  | mk (used : Int) (next : Fin 256 → Option (guac_uuid_tree_node α ⊕ α))

def guac_uuid_tree_node.used {α : Type} : guac_uuid_tree_node α → Int
  | ⟨u, _⟩ => u

def guac_uuid_tree_node.next {α : Type} :
    guac_uuid_tree_node α → Fin 256 → Option (guac_uuid_tree_node α ⊕ α)
  | ⟨_, n⟩ => n

/-- Function `guac_create_uuid_tree`: a fresh node with `used = 0` and all entries
NULL. -/
def guac_create_uuid_tree (α : Type) : guac_uuid_tree_node α :=
  ⟨0, fun _ => none⟩

/-- Function `guac_uuid_tree_put` (uuidtree.c lines 38-66): walk the inner bytes,
allocating (and counting in `used`) a child wherever the entry is NULL, then
store the object at the final byte's entry of the last node. An inner entry
already holding an object cannot arise from these operations on equal-length
keys; the model re-allocates there, mirroring what a NULL check would do. -/
def guac_uuid_tree_put {α : Type} (tree : guac_uuid_tree_node α)
    (inner : List (Fin 256)) (last : Fin 256) (obj : α) : guac_uuid_tree_node α :=
  match tree, inner with
  | ⟨used, next⟩, [] => ⟨used, Function.update next last (some (Sum.inr obj))⟩
  | ⟨used, next⟩, b :: rest =>
    match next b with
    | some (Sum.inl child) =>
      ⟨used, Function.update next b
        (some (Sum.inl (guac_uuid_tree_put child rest last obj)))⟩
    | _ =>
      ⟨used + 1, Function.update next b
        (some (Sum.inl (guac_uuid_tree_put (guac_create_uuid_tree α) rest last obj)))⟩

/-- Function `guac_uuid_tree_get` (uuidtree.c lines 68-90): walk the inner bytes,
returning NULL as soon as an entry is missing; at the last node return the
entry at the final byte. -/
def guac_uuid_tree_get {α : Type} (tree : guac_uuid_tree_node α)
    (inner : List (Fin 256)) (last : Fin 256) : Option α :=
  match tree, inner with
  | ⟨_, next⟩, [] =>
    match next last with
    | some (Sum.inr a) => some a
    | _ => none
  | ⟨_, next⟩, b :: rest =>
    match next b with
    | some (Sum.inl child) => guac_uuid_tree_get child rest last
    | _ => none

/-- The clearing step of `guac_uuid_tree_remove` (uuidtree.c lines 110-121),
applied to the node the descent reached, at a given slot: a non-NULL entry
is set to NULL and `used` decremented (the empty-node cleanup is a stub in
the source); a NULL entry is left alone. -/
def guac_uuid_tree_clear {α : Type} (tree : guac_uuid_tree_node α)
    (index : Fin 256) : guac_uuid_tree_node α :=
  match tree with
  | ⟨used, next⟩ =>
    match next index with
    | some _ => ⟨used - 1, Function.update next index none⟩
    | none => ⟨used, next⟩

/-- Function `guac_uuid_tree_remove` (uuidtree.c lines 92-122): walk the
inner bytes, returning unchanged as soon as an entry is missing. Unlike
`put` (line 63) and `get` (line 87), this function never re-reads `index`
after the descent loop, so line 111 clears the slot of the final node at
the STALE index — the last inner byte, `uuid[14]` — and the 16th byte
(`last`) is never read at all. With an empty inner path the C would read
`index` uninitialised; that cannot arise for 16-byte UUIDs, and the model
leaves the tree unchanged there. -/
def guac_uuid_tree_remove {α : Type} (tree : guac_uuid_tree_node α)
    (inner : List (Fin 256)) (last : Fin 256) : guac_uuid_tree_node α :=
  match tree, inner with
  | t, [] => t
  | ⟨used, next⟩, [b] =>
    match next b with
    | some (Sum.inl child) =>
      ⟨used, Function.update next b (some (Sum.inl (guac_uuid_tree_clear child b)))⟩
    | _ => ⟨used, next⟩
  | ⟨used, next⟩, b :: rest =>
    match next b with
    | some (Sum.inl child) =>
      ⟨used, Function.update next b
        (some (Sum.inl (guac_uuid_tree_remove child rest last)))⟩
    | _ => ⟨used, next⟩

/-- C4 fails on the code: because `guac_uuid_tree_remove` clears the slot at
the stale loop index (the last inner byte) instead of re-reading the 16th
byte the way `put` and `get` do, removing a UUID whose two final bytes
differ does not delete its entry — a lookup still returns the client — and
it deletes instead the sibling UUID that shares the first 15 bytes and ends
in the stale byte. Concretely: client 7 sits under the UUID with inner path
[0] and last byte 1, client 9 under the sibling with last byte 0; removing
the first leaves client 7 findable and erases client 9, which was present
before. -/
theorem uuid_tree_remove_stale_index_bug :
    guac_uuid_tree_get
      (guac_uuid_tree_remove
        (guac_uuid_tree_put (guac_uuid_tree_put (guac_create_uuid_tree Nat)
          [0] 1 7) [0] 0 9) [0] 1) [0] 1 = some 7 ∧
    guac_uuid_tree_get
      (guac_uuid_tree_remove
        (guac_uuid_tree_put (guac_uuid_tree_put (guac_create_uuid_tree Nat)
          [0] 1 7) [0] 0 9) [0] 1) [0] 0 = none ∧
    guac_uuid_tree_get
      (guac_uuid_tree_put (guac_uuid_tree_put (guac_create_uuid_tree Nat)
        [0] 1 7) [0] 0 9) [0] 0 = some 9 := by
  refine ⟨by decide, by decide, by decide⟩

/-! ## Handshake: guac_get_client (src/guacamole/libguac/src/client.c 83-166)

The handshake loop repeatedly calls `guac_read_instruction`, whose result is
positive (a complete instruction), zero (nothing complete yet) or negative
(error/EOF). The model takes the sequence of read results as input and
returns the observable outcome of the loop. -/

inductive guac_read_event : Type where
  | complete (inst : guac_instruction)
  | needMore
  | ioError
deriving DecidableEq

inductive handshake_outcome : Type where
  /-- The loop broke out at a `connect`: a client was allocated, registered
  when a registry was given, and the caller proceeds to init and the event
  loop. -/
  | connected (registered : Bool)
  /-- A `resume` was handled: the registry (when given) was searched, the
  found client's io was swapped, and NULL was returned (the old loop keeps
  driving the connection). -/
  | resumed (found : Bool)
  /-- A read returned negative: NULL is returned; the caller closes the
  socket. No registration happened. -/
  | closed
  /-- The event sequence ran out while the loop was still waiting for a
  handshake instruction. -/
  | pending
deriving DecidableEq

/-- Did the handshake register a new connection? Registration happens only
on the `connect` path and only when a registry was supplied
(src/client.c lines 112-118). -/
def handshake_registers : handshake_outcome → Bool
  | .connected r => r
  | _ => false

/-- The handshake loop of `guac_get_client`: a `connect` breaks out (allocating
and, given a registry, registering and sending the UUID); `resume` looks up
the base64-decoded UUID argument and returns NULL either way; a read error
returns NULL; anything else — including a complete instruction with any
other opcode — falls through and the loop reads on. -/
def guac_get_client (hasRegistry : Bool) (lookup : List Char → Bool) :
    List guac_read_event → handshake_outcome
  | [] => .pending
  | .complete i :: es =>
    if i.opcode = "connect".toList then .connected hasRegistry
    else if i.opcode = "resume".toList then
      .resumed (hasRegistry && lookup (i.argv.getD 0 []))
    else guac_get_client hasRegistry lookup es
  | .needMore :: es => guac_get_client hasRegistry lookup es
  | .ioError :: _ => .closed

/-- C5 is false as stated: a first instruction with opcode `foo` does not
close the socket — the handshake loop falls through, keeps reading, and a
later `connect` still registers a connection and proceeds. -/
theorem handshake_skips_unknown_opcode_cex :
    guac_get_client true (fun _ => false)
      [.complete ⟨"foo".toList, []⟩, .complete ⟨"connect".toList, []⟩] =
      .connected true ∧
    handshake_registers (guac_get_client true (fun _ => false)
      [.complete ⟨"foo".toList, []⟩, .complete ⟨"connect".toList, []⟩]) = true ∧
    "foo".toList ≠ "connect".toList ∧ "foo".toList ≠ "resume".toList := by
  refine ⟨by decide, by decide, by decide, by decide⟩

/-- C5 (amended): a handshake instruction whose opcode is neither `connect`
nor `resume` is ignored — the loop continues exactly as if it had not
occurred — and if no `connect` or `resume` ever completes, the daemon never
registers a connection and never proceeds to the event loop: the handshake
either ends at an I/O failure (socket closed) or is still waiting. -/
theorem handshake_unknown_opcode (hasRegistry : Bool)
    (lookup : List Char → Bool) (i : guac_instruction)
    (es : List guac_read_event)
    (hi1 : i.opcode ≠ "connect".toList) (hi2 : i.opcode ≠ "resume".toList)
    (hall : ∀ j : guac_instruction, guac_read_event.complete j ∈ es →
      j.opcode ≠ "connect".toList ∧ j.opcode ≠ "resume".toList) :
    guac_get_client hasRegistry lookup (.complete i :: es) =
      guac_get_client hasRegistry lookup es ∧
    handshake_registers (guac_get_client hasRegistry lookup es) = false ∧
    (guac_get_client hasRegistry lookup es = .closed ∨
      guac_get_client hasRegistry lookup es = .pending) := by
  have hskip : guac_get_client hasRegistry lookup (.complete i :: es) =
      guac_get_client hasRegistry lookup es := by
    conv_lhs => unfold guac_get_client
    rw [if_neg hi1, if_neg hi2]
  refine ⟨hskip, ?_⟩
  clear hskip hi1 hi2 i
  induction es with
  | nil => simp [guac_get_client, handshake_registers]
  | cons e rest ih =>
    cases e with
    | complete j =>
      obtain ⟨hj1, hj2⟩ := hall j (by simp)
      have hrest : ∀ k : guac_instruction, guac_read_event.complete k ∈ rest →
          k.opcode ≠ "connect".toList ∧ k.opcode ≠ "resume".toList :=
        fun k m => hall k (List.mem_cons_of_mem _ m)
      have e : guac_get_client hasRegistry lookup (.complete j :: rest) =
          guac_get_client hasRegistry lookup rest := by
        conv_lhs => unfold guac_get_client
        rw [if_neg hj1, if_neg hj2]
      rw [e]
      exact ih hrest
    | needMore =>
      have hrest : ∀ k : guac_instruction, guac_read_event.complete k ∈ rest →
          k.opcode ≠ "connect".toList ∧ k.opcode ≠ "resume".toList :=
        fun k m => hall k (List.mem_cons_of_mem _ m)
      have e : guac_get_client hasRegistry lookup (.needMore :: rest) =
          guac_get_client hasRegistry lookup rest := by
        conv_lhs => unfold guac_get_client
      rw [e]
      exact ih hrest
    | ioError => simp [guac_get_client, handshake_registers]

/-- Witness for the amended C5: a stream whose only complete instruction has
opcode `foo`, followed by an I/O error. -/
theorem handshake_unknown_opcode_witness :
    (("foo".toList ≠ "connect".toList) ∧ ("foo".toList ≠ "resume".toList)) ∧
    guac_get_client true (fun _ => false)
        (.complete ⟨"foo".toList, []⟩ :: [.ioError]) =
      guac_get_client true (fun _ => false) [.ioError] ∧
    handshake_registers (guac_get_client true (fun _ => false) [.ioError]) = false :=
  ⟨⟨by decide, by decide⟩,
    (handshake_unknown_opcode true (fun _ => false) ⟨"foo".toList, []⟩
      [.ioError] (by decide) (by decide)
      (by intro j m; simp at m)).1,
    (handshake_unknown_opcode true (fun _ => false) ⟨"foo".toList, []⟩
      [.ioError] (by decide) (by decide)
      (by intro j m; simp at m)).2.1⟩

/-! ## Event loop dispatch: guac_start_client (libguac/src/client.c 224-292)

One complete instruction is dispatched by opcode; a handler slot may be
unset. The model records every handler invocation, the number of `sem_post`s
performed on the connection's `io_lock` (the handoff signal), and whether
the dispatch terminates the loop (a `return`). Handlers return an `Int`; a
nonzero return terminates the loop (the syslog-and-return paths). -/

/-- The `atoi` applied to argument bytes: optional C whitespace, optional
sign, then the leading run of decimal digits; no digits gives 0. -/
def c_atoi_loop : List Char → Int → Int
  | [], acc => acc
  | c :: rest, acc =>
    if c.isDigit then c_atoi_loop rest (acc * 10 + ((c.toNat : Int) - 48))
    else acc

def c_isspace (c : Char) : Bool :=
  c == ' ' || c == '\t' || c == '\n' || c == '\x0b' || c == '\x0c' || c == '\r'

def c_atoi (s : List Char) : Int :=
  match s.dropWhile c_isspace with
  | '-' :: rest => - c_atoi_loop rest 0
  | '+' :: rest => c_atoi_loop rest 0
  | rest => c_atoi_loop rest 0

inductive handler_call : Type where
  | mouse (x y mask : Int)
  | key (keysym pressed : Int)
  | clipboard (text : List Char)
deriving DecidableEq

/-- The three inbound-instruction handler slots of `guac_client` consulted by
the dispatch (each may be unset); the handler result is its `int` return. -/
structure guac_client_handlers where
  mouse_handler : Option (Int → Int → Int → Int)
  key_handler : Option (Int → Int → Int)
  clipboard_handler : Option (List Char → Int)

structure dispatch_result where
  calls : List handler_call
  sem_posts : Nat
  terminated : Bool
deriving DecidableEq

/-- Dispatch of one complete instruction (the if/else-if chain at
src/client.c lines 226-284): `mouse`, `key`, `clipboard` invoke their
handler when set (terminating on nonzero return), `pause` performs one
`sem_post` on the io_lock and continues, `disconnect` terminates, and any
other opcode matches no branch. -/
def guac_dispatch (c : guac_client_handlers) (i : guac_instruction) :
    dispatch_result :=
  if i.opcode = "mouse".toList then
    match c.mouse_handler with
    | none => ⟨[], 0, false⟩
    | some h =>
      let x := c_atoi (i.argv.getD 0 [])
      let y := c_atoi (i.argv.getD 1 [])
      let mask := c_atoi (i.argv.getD 2 [])
      ⟨[.mouse x y mask], 0, h x y mask != 0⟩
  else if i.opcode = "key".toList then
    match c.key_handler with
    | none => ⟨[], 0, false⟩
    | some h =>
      let keysym := c_atoi (i.argv.getD 0 [])
      let pressed := c_atoi (i.argv.getD 1 [])
      ⟨[.key keysym pressed], 0, h keysym pressed != 0⟩
  else if i.opcode = "clipboard".toList then
    match c.clipboard_handler with
    | none => ⟨[], 0, false⟩
    | some h =>
      let text := guac_unescape_string_inplace (i.argv.getD 0 [])
      ⟨[.clipboard text], 0, h text != 0⟩
  else if i.opcode = "pause".toList then ⟨[], 1, false⟩
  else if i.opcode = "disconnect".toList then ⟨[], 0, true⟩
  else ⟨[], 0, false⟩

/-- The inner do-while of the event loop over a batch of complete
instructions: dispatch in order, stopping at the first terminating one. -/
def guac_dispatch_loop (c : guac_client_handlers) :
    List guac_instruction → dispatch_result
  | [] => ⟨[], 0, false⟩
  | i :: rest =>
    let r := guac_dispatch c i
    if r.terminated then r
    else
      let q := guac_dispatch_loop c rest
      ⟨r.calls ++ q.calls, r.sem_posts + q.sem_posts, q.terminated⟩

/-- C8: dispatching a `pause` instruction performs exactly one `sem_post` on
the connection's io_lock (from semaphore value 0, the owned state after the
handshake, to 1, released), invokes no handler, does not terminate, and the
loop goes on to process the remaining instructions (and hence the next
backend `handle_messages` batch) unchanged. -/
theorem pause_releases_io_lock (c : guac_client_handlers)
    (rest : List guac_instruction) :
    guac_dispatch c ⟨"pause".toList, []⟩ = ⟨[], 1, false⟩ ∧
    (0 + (guac_dispatch c ⟨"pause".toList, []⟩).sem_posts = 1) ∧
    guac_dispatch_loop c (⟨"pause".toList, []⟩ :: rest) =
      ⟨(guac_dispatch_loop c rest).calls,
        1 + (guac_dispatch_loop c rest).sem_posts,
        (guac_dispatch_loop c rest).terminated⟩ := by
  have hd : guac_dispatch c ⟨"pause".toList, []⟩ = ⟨[], 1, false⟩ := by rfl
  refine ⟨hd, by rw [hd]; rfl, ?_⟩
  conv_lhs => unfold guac_dispatch_loop
  rw [hd]
  simp

/-- C10: an instruction whose opcode is none of `mouse`, `key`, `clipboard`,
`pause`, `disconnect` matches no branch of the dispatch chain: no handler is
invoked, no `sem_post` happens, the loop does not terminate, and the batch
behaves exactly as if the instruction were absent (it is merely consumed). -/
theorem unknown_opcode_ignored (c : guac_client_handlers)
    (i : guac_instruction) (rest : List guac_instruction)
    (h1 : i.opcode ≠ "mouse".toList) (h2 : i.opcode ≠ "key".toList)
    (h3 : i.opcode ≠ "clipboard".toList) (h4 : i.opcode ≠ "pause".toList)
    (h5 : i.opcode ≠ "disconnect".toList) :
    guac_dispatch c i = ⟨[], 0, false⟩ ∧
    guac_dispatch_loop c (i :: rest) = guac_dispatch_loop c rest := by
  have hd : guac_dispatch c i = ⟨[], 0, false⟩ := by
    unfold guac_dispatch
    rw [if_neg h1, if_neg h2, if_neg h3, if_neg h4, if_neg h5]
  refine ⟨hd, ?_⟩
  conv_lhs => unfold guac_dispatch_loop
  rw [hd]
  simp

/-- Witness for C10 at the concrete opcode `foo` with all handlers set. -/
theorem unknown_opcode_ignored_witness :
    (("foo".toList ≠ "mouse".toList) ∧ ("foo".toList ≠ "key".toList) ∧
     ("foo".toList ≠ "clipboard".toList) ∧ ("foo".toList ≠ "pause".toList) ∧
     ("foo".toList ≠ "disconnect".toList)) ∧
    guac_dispatch ⟨some (fun _ _ _ => 0), some (fun _ _ => 0), some (fun _ => 0)⟩
        ⟨"foo".toList, []⟩ = ⟨[], 0, false⟩ ∧
    guac_dispatch_loop
        ⟨some (fun _ _ _ => 0), some (fun _ _ => 0), some (fun _ => 0)⟩
        [⟨"foo".toList, []⟩, ⟨"disconnect".toList, []⟩] =
      guac_dispatch_loop
        ⟨some (fun _ _ _ => 0), some (fun _ _ => 0), some (fun _ => 0)⟩
        [⟨"disconnect".toList, []⟩] :=
  ⟨⟨by decide, by decide, by decide, by decide, by decide⟩,
    (unknown_opcode_ignored _ ⟨"foo".toList, []⟩ [⟨"disconnect".toList, []⟩]
      (by decide) (by decide) (by decide) (by decide) (by decide)).1,
    (unknown_opcode_ignored _ ⟨"foo".toList, []⟩ [⟨"disconnect".toList, []⟩]
      (by decide) (by decide) (by decide) (by decide) (by decide)).2⟩

/-! ## Base64 stream codec: src/guacamole/proxy/guacio.c

The module-level state of that file: the 3-int accumulator `ready_buf` with
its fill count `ready`, the 8192-byte outbound buffer `out_buf` with its
fill count `written`, and the bytes already pushed to the fd by `write`.
The model keeps the filled prefixes as lists (`ready` and `written` are the
lengths), and records every out_buf store index in a ghost trace `stores`
for the bounds claim. -/

structure GuacioState where
  ready_buf : List Int
  out_buf : List Char
  sent : List Char
  stores : List Nat
deriving DecidableEq, Repr

/-- The base64 alphabet table `characters` (guacio.c lines 7-12). -/
def characters : List Char :=
  "ABCDEFGHIJKLMNOPQRSTUVWXYZabcdefghijklmnopqrstuvwxyz0123456789+/".toList

/-- The four bytes emitted by `__write_base64_triplet` (guacio.c lines
25-43): the first always encodes the top six bits of `a`; `b < 0` selects
the two-pad tail, `c < 0` the one-pad tail, otherwise a full group. -/
def triplet_chars (a b c : Int) : List Char :=
  if 0 ≤ b then
    if 0 ≤ c then
      [characters.getD ((a.toNat &&& 0xFC) >>> 2) '?',
       characters.getD (((a.toNat &&& 0x03) <<< 4) ||| ((b.toNat &&& 0xF0) >>> 4)) '?',
       characters.getD (((b.toNat &&& 0x0F) <<< 2) ||| ((c.toNat &&& 0xC0) >>> 6)) '?',
       characters.getD (c.toNat &&& 0x3F) '?']
    else
      [characters.getD ((a.toNat &&& 0xFC) >>> 2) '?',
       characters.getD (((a.toNat &&& 0x03) <<< 4) ||| ((b.toNat &&& 0xF0) >>> 4)) '?',
       characters.getD ((b.toNat &&& 0x0F) <<< 2) '?',
       '=']
  else
    [characters.getD ((a.toNat &&& 0xFC) >>> 2) '?',
     characters.getD ((a.toNat &&& 0x03) <<< 4) '?',
     '=', '=']

/-- The store-and-flush tail of `__write_base64_triplet` (guacio.c lines
25-54): the four bytes are stored at indices `written .. written+3`, then if
`written > 8188` the buffer is pushed to the fd and cleared. The store
indices are appended to the ghost trace. -/
def triplet_append (st : GuacioState) (cs : List Char) : GuacioState :=
  if 8188 < st.out_buf.length + cs.length then
    { ready_buf := st.ready_buf, out_buf := [],
      sent := st.sent ++ (st.out_buf ++ cs),
      stores := st.stores ++ [st.out_buf.length, st.out_buf.length + 1,
        st.out_buf.length + 2, st.out_buf.length + 3] }
  else
    { st with
      out_buf := st.out_buf ++ cs,
      stores := st.stores ++ [st.out_buf.length, st.out_buf.length + 1,
        st.out_buf.length + 2, st.out_buf.length + 3] }

def write_base64_triplet (st : GuacioState) (a b c : Int) : GuacioState :=
  triplet_append st (triplet_chars a b c)

/-- Function `__write_base64_byte` (guacio.c lines 66-82): `ready_buf[ready++] =
buf & 0xFF` — note the mask: on the C `int` promotion of the (signed) char
argument, `& 0xFF` is the value mod 256, so the `-1` passed by
`flush_base64` is stored as 255, not -1. A full accumulator is emitted as
one triplet and reset. -/
def write_base64_byte (st : GuacioState) (buf : Int) : GuacioState :=
  if (st.ready_buf ++ [buf % 256]).length = 3 then
    let st2 := write_base64_triplet { st with ready_buf := st.ready_buf ++ [buf % 256] }
      ((st.ready_buf ++ [buf % 256]).getD 0 0)
      ((st.ready_buf ++ [buf % 256]).getD 1 0)
      ((st.ready_buf ++ [buf % 256]).getD 2 0)
    { st2 with ready_buf := [] }
  else { st with ready_buf := st.ready_buf ++ [buf % 256] }

/-- Function `write_base64` (guacio.c lines 84-101): feed each input byte to
`__write_base64_byte`. Input bytes are unsigned values 0..255 (the C char's
sign disappears under the `& 0xFF`). -/
def write_base64 (st : GuacioState) : List Nat → GuacioState
  | [] => st
  | b :: rest => write_base64 (write_base64_byte st (b : Int)) rest

/-- The `while (ready > 0) __write_base64_byte(fd, -1)` loop of
`flush_base64` (guacio.c lines 108-112). From any reachable state the
accumulator holds at most 2 bytes, so 3 rounds of fuel always suffice (one
byte brings it to 3 and resets it to 0 at the latest on the second round). -/
def flush_ready : Nat → GuacioState → GuacioState
  | 0, st => st
  | fuel + 1, st =>
    if 0 < st.ready_buf.length then flush_ready fuel (write_base64_byte st (-1))
    else st

/-- Function `flush_base64` (guacio.c lines 103-125): drain the accumulator through
`__write_base64_byte(fd, -1)`, then push any remaining outbound bytes to the
fd and clear the buffer. -/
def flush_base64 (st : GuacioState) : GuacioState :=
  if 0 < (flush_ready 3 st).out_buf.length then
    { flush_ready 3 st with
      out_buf := [],
      sent := (flush_ready 3 st).sent ++ (flush_ready 3 st).out_buf }
  else flush_ready 3 st

/-- All module-level state is zero-initialised (guacio.c lines 14-18). -/
def guacio_init : GuacioState := ⟨[], [], [], []⟩

/-- The bytes observably produced so far: what was pushed to the fd followed
by what still sits in the outbound buffer. -/
def b64_output (st : GuacioState) : List Char := st.sent ++ st.out_buf

inductive b64_op : Type where
  | write (bytes : List Nat)
  | flushB64

/-- A client's sequence of base64 writes and flushes. -/
def run_b64 (st : GuacioState) : List b64_op → GuacioState
  | [] => st
  | .write bs :: rest => run_b64 (write_base64 st bs) rest
  | .flushB64 :: rest => run_b64 (flush_base64 st) rest

/-- The standard base64 encoding of a byte sequence with `=` padding — the
encoding the spec (section 4.1) prescribes for `write_base64`/`flush_base64`. -/
def specBase64 : List Nat → List Char
  | [] => []
  | [a] =>
    [characters.getD (a >>> 2) '?',
     characters.getD ((a &&& 0x03) <<< 4) '?', '=', '=']
  | [a, b] =>
    [characters.getD (a >>> 2) '?',
     characters.getD (((a &&& 0x03) <<< 4) ||| (b >>> 4)) '?',
     characters.getD ((b &&& 0x0F) <<< 2) '?', '=']
  | a :: b :: c :: rest =>
    characters.getD (a >>> 2) '?' ::
    characters.getD (((a &&& 0x03) <<< 4) ||| (b >>> 4)) '?' ::
    characters.getD (((b &&& 0x0F) <<< 2) ||| (c >>> 6)) '?' ::
    characters.getD (c &&& 0x3F) '?' :: specBase64 rest

/-- C7 fails on the code: `flush_base64` passes -1 as the pad sentinel, but
`__write_base64_byte` masks it with `& 0xFF` into the data byte 255, so the
padding branches of the triplet writer are unreachable from the flush loop.
Writing the single byte 0 and flushing emits `AP//` (the residue padded with
two 0xFF data bytes) where standard base64 is `AA==`. The accumulator is
still reset to 0 by the flush, as claimed. -/
theorem flush_base64_padding_bug :
    b64_output (flush_base64 (write_base64 guacio_init [0])) = "AP//".toList ∧
    specBase64 [0] = "AA==".toList ∧
    "AP//".toList ≠ "AA==".toList ∧
    (flush_base64 (write_base64 guacio_init [0])).ready_buf.length = 0 := by
  refine ⟨by decide, by decide, by decide, by decide⟩

/-! ### C9: outbound buffer bounds -/

/-- The safety predicate of C9: the outbound buffer holds at most 8188 bytes
at rest, and every store so far hit an index below 8192. -/
def buf_ok (st : GuacioState) : Prop :=
  st.out_buf.length ≤ 8188 ∧ ∀ idx ∈ st.stores, idx < 8192

theorem triplet_chars_len (a b c : Int) : (triplet_chars a b c).length = 4 := by
  unfold triplet_chars
  split_ifs <;> rfl

theorem triplet_append_ok (st : GuacioState) (cs : List Char)
    (hcs : cs.length = 4) (h : buf_ok st) : buf_ok (triplet_append st cs) := by
  obtain ⟨h1, h2⟩ := h
  have hstores : ∀ idx ∈ st.stores ++ [st.out_buf.length, st.out_buf.length + 1,
      st.out_buf.length + 2, st.out_buf.length + 3], idx < 8192 := by
    intro idx hidx
    rcases List.mem_append.mp hidx with hm | hm
    · exact h2 idx hm
    · simp at hm
      omega
  unfold triplet_append
  split_ifs with hlen
  · exact ⟨by simp, hstores⟩
  · refine ⟨?_, hstores⟩
    simp only [List.length_append]
    omega

theorem triplet_ok (st : GuacioState) (a b c : Int) (h : buf_ok st) :
    buf_ok (write_base64_triplet st a b c) :=
  triplet_append_ok st _ (triplet_chars_len a b c) h

theorem byte_ok (st : GuacioState) (b : Int) (h : buf_ok st) :
    buf_ok (write_base64_byte st b) := by
  unfold write_base64_byte
  split_ifs with hlen
  · exact triplet_ok { st with ready_buf := st.ready_buf ++ [b % 256] } _ _ _ h
  · exact h

theorem write_ok (bytes : List Nat) (st : GuacioState) (h : buf_ok st) :
    buf_ok (write_base64 st bytes) := by
  induction bytes generalizing st with
  | nil => exact h
  | cons b rest ih => exact ih _ (byte_ok st b h)

theorem flush_ready_ok (fuel : Nat) (st : GuacioState) (h : buf_ok st) :
    buf_ok (flush_ready fuel st) := by
  induction fuel generalizing st with
  | zero => exact h
  | succ n ih =>
    unfold flush_ready
    split_ifs with hr
    · exact ih _ (byte_ok st (-1) h)
    · exact h

theorem flush_ok (st : GuacioState) (h : buf_ok st) :
    buf_ok (flush_base64 st) := by
  have h3 := flush_ready_ok 3 st h
  unfold flush_base64
  split_ifs with hr
  · exact ⟨by simp, h3.2⟩
  · exact h3

/-- C9: for every sequence of base64 write and flush operations from the
initial state, every store into the 8192-byte `out_buf` hit an index below
8192 (the ghost trace records them all), and at rest the fill count
`written` is at most 8188, because each 4-byte group that carries it past
8188 immediately flushes the buffer. -/
theorem out_buf_bound (ops : List b64_op) :
    (run_b64 guacio_init ops).out_buf.length ≤ 8188 ∧
    ∀ idx ∈ (run_b64 guacio_init ops).stores, idx < 8192 := by
  have hinit : buf_ok guacio_init := ⟨by simp [guacio_init], by simp [guacio_init]⟩
  have hrun : ∀ (os : List b64_op) (st : GuacioState), buf_ok st →
      buf_ok (run_b64 st os) := by
    intro os
    induction os with
    | nil => exact fun st h => h
    | cons o rest ih =>
      intro st h
      cases o with
      | write bs => exact ih _ (write_ok bs st h)
      | flushB64 => exact ih _ (flush_ok st h)
  exact hrun ops guacio_init hinit

end Guac
